import Mathlib

/-
Verification of the associative container in `src/app/cmd/libs/map.cpp`
(class `Map`: a contiguous growable buffer of `(const char*, const char*)`
entries with doubling growth, append-only insertion, and linear-scan
lookup via `strcmp`).

The embedding models a C string as a pair of an address (reference
identity) and its text content; `strcmp` inspects only the content, as in
C. The backing buffer is modelled by the list of its initialized slots in
index order; `size` and `capacity` are tracked exactly as the fields of
the class.
-/

set_option autoImplicit false

namespace Ferret

/-- A `const char*`: a pointer value (`addr`, the reference identity) together
with the NUL-terminated text it points at (`content`). Two distinct pointers
may point at equal text. -/
structure CStr where
  addr : Nat
  content : String
deriving DecidableEq, Repr

/-- The comparison loop of C `strcmp`: walk both character sequences in
step; at the first position where they differ (a differing character, or one
sequence ending first — the shorter one hits its terminating NUL), return a
negative or positive value by which side is smaller there; return 0 when
both end together with no difference. -/
def charListCmp : List Char → List Char → Int
  | [], [] => 0
  | [], _ :: _ => -1
  | _ :: _, [] => 1
  | c1 :: r1, c2 :: r2 =>
      if c1 = c2 then charListCmp r1 r2
      else if c1.toNat < c2.toNat then -1 else 1

/-- C `strcmp`: compares the pointed-at text only, never the pointer values;
returns 0 exactly when the contents are equal. -/
def strcmp (a b : CStr) : Int :=
  charListCmp a.content.data b.content.data

/-- `Map::Entry`: a `(key, value)` pair of borrowed string references. -/
structure Entry where
  key : CStr
  value : CStr
deriving DecidableEq, Repr

/-- The `Map` class state: `entries` is the list of initialized slots of the
backing buffer in index order (slot `i` of the allocation holds
`entries[i]` for `i < size`), plus the `size` and `capacity` fields. -/
structure Map where
  entries : List Entry
  size : Nat
  capacity : Nat
deriving DecidableEq, Repr

/-- `Map::Map(size_t initial_capacity)`: sets `capacity = initial_capacity`,
`size = 0`, and allocates an uninitialized buffer (no slot is initialized,
so the modelled entry list is empty). No validation is performed on
`initial_capacity`. -/
def Map.construct (initial_capacity : Nat) : Map :=
  { entries := [], size := 0, capacity := initial_capacity }

/-- `Map::put`: if `size == capacity`, double `capacity` and `realloc` the
buffer (which preserves every initialized slot at its index); then write the
new entry at index `size` and increment `size`. -/
def Map.put (m : Map) (key value : CStr) : Map :=
  let newCapacity := if m.size = m.capacity then m.capacity * 2 else m.capacity
  { entries := m.entries ++ [⟨key, value⟩]
    size := m.size + 1
    capacity := newCapacity }

/-- The loop body of `Map::get`: scan the listed slots in index order and
return the value of the first entry whose key satisfies
`strcmp(entry.key, key) == 0`. -/
def lookupLoop (key : CStr) : List Entry → Option CStr
  | [] => none
  | e :: rest => if strcmp e.key key = 0 then some e.value else lookupLoop key rest

/-- `Map::get`: loop `i` from 0 while `i < size`, returning
`entries[i].value` for the first `i` with `strcmp(entries[i].key, key) == 0`,
and `nullptr` (here `none`) when the loop falls through. -/
def Map.get (m : Map) (key : CStr) : Option CStr :=
  lookupLoop key (m.entries.take m.size)

/-- `Map::get` as a state-passing operation: the method is `const` and its
body performs no write to `entries`, `size` or `capacity`, so the post-state
is the pre-state and the result is `Map.get`. -/
def Map.getOp (m : Map) (key : CStr) : Map × Option CStr :=
  (m, m.get key)

/-- A whole sequence of `put` calls, performed left to right. -/
def Map.putList (m : Map) (ps : List (CStr × CStr)) : Map :=
  ps.foldl (fun acc p => acc.put p.1 p.2) m

/-- The entry a `put` call appends. -/
def entryOf (p : CStr × CStr) : Entry := ⟨p.1, p.2⟩

/- ### Basic lemmas about the embedded operations -/

theorem charListCmp_eq_zero_iff : ∀ l1 l2 : List Char, charListCmp l1 l2 = 0 ↔ l1 = l2
  | [], [] => by simp [charListCmp]
  | [], c :: r => by simp [charListCmp]
  | c :: r, [] => by simp [charListCmp]
  | c1 :: r1, c2 :: r2 => by
      by_cases h : c1 = c2
      · subst h
        simp [charListCmp, charListCmp_eq_zero_iff r1 r2]
      · have hne : charListCmp (c1 :: r1) (c2 :: r2)
            = if c1.toNat < c2.toNat then -1 else 1 := by
          simp [charListCmp, h]
        rw [hne]
        constructor
        · intro hz
          by_cases hlt : c1.toNat < c2.toNat
          · rw [if_pos hlt] at hz
            exact absurd hz (by decide)
          · rw [if_neg hlt] at hz
            exact absurd hz (by decide)
        · intro he
          injection he with h1 h2
          exact absurd h1 h

theorem strcmp_eq_zero_iff (a b : CStr) : strcmp a b = 0 ↔ a.content = b.content := by
  unfold strcmp
  rw [charListCmp_eq_zero_iff]
  exact ⟨fun h => String.ext h, fun h => congrArg String.data h⟩

theorem strcmp_congr_right (k : CStr) {q q' : CStr} (h : q.content = q'.content) :
    strcmp k q = strcmp k q' := by
  unfold strcmp
  rw [h]

theorem entries_put (m : Map) (k v : CStr) :
    (m.put k v).entries = m.entries ++ [⟨k, v⟩] := rfl

theorem size_put (m : Map) (k v : CStr) : (m.put k v).size = m.size + 1 := rfl

theorem capacity_put (m : Map) (k v : CStr) :
    (m.put k v).capacity = if m.size = m.capacity then m.capacity * 2 else m.capacity := rfl

theorem putList_nil (m : Map) : m.putList [] = m := rfl

theorem putList_cons (m : Map) (p : CStr × CStr) (ps : List (CStr × CStr)) :
    m.putList (p :: ps) = (m.put p.1 p.2).putList ps := rfl

theorem putList_append (m : Map) (l1 l2 : List (CStr × CStr)) :
    m.putList (l1 ++ l2) = (m.putList l1).putList l2 := by
  simp [Map.putList, List.foldl_append]

theorem entries_putList (ps : List (CStr × CStr)) (m : Map) :
    (m.putList ps).entries = m.entries ++ ps.map entryOf := by
  induction ps generalizing m with
  | nil => simp [putList_nil]
  | cons p ps ih =>
      rw [putList_cons, ih, entries_put]
      simp [entryOf]

theorem size_putList (ps : List (CStr × CStr)) (m : Map) :
    (m.putList ps).size = m.size + ps.length := by
  induction ps generalizing m with
  | nil => simp [putList_nil]
  | cons p ps ih =>
      rw [putList_cons, ih, size_put]
      simp only [List.length_cons]
      omega

/-- The modelled buffer always lists exactly the first `size` slots. -/
def Map.wb (m : Map) : Prop := m.entries.length = m.size

theorem wb_construct (c : Nat) : (Map.construct c).wb := rfl

theorem wb_put {m : Map} (h : m.wb) (k v : CStr) : (m.put k v).wb := by
  simp [Map.wb, entries_put, size_put] at *
  omega

theorem wb_putList {m : Map} (h : m.wb) (ps : List (CStr × CStr)) :
    (m.putList ps).wb := by
  simp [Map.wb, entries_putList, size_putList] at *
  omega

theorem get_eq_lookupLoop {m : Map} (h : m.wb) (q : CStr) :
    m.get q = lookupLoop q m.entries := by
  unfold Map.get
  rw [← h, List.take_length]

theorem get_construct (c : Nat) (q : CStr) : (Map.construct c).get q = none := rfl

theorem lookupLoop_append (q : CStr) (l1 l2 : List Entry) :
    lookupLoop q (l1 ++ l2) =
      match lookupLoop q l1 with
      | some w => some w
      | none => lookupLoop q l2 := by
  induction l1 with
  | nil => simp [lookupLoop]
  | cons e rest ih =>
      by_cases h : strcmp e.key q = 0
      · simp [lookupLoop, h]
      · simp [lookupLoop, h, ih]

theorem get_put {m : Map} (h : m.wb) (k v q : CStr) :
    (m.put k v).get q =
      match m.get q with
      | some w => some w
      | none => if strcmp k q = 0 then some v else none := by
  rw [get_eq_lookupLoop (wb_put h k v), get_eq_lookupLoop h, entries_put,
    lookupLoop_append]
  cases lookupLoop q m.entries with
  | none => simp [lookupLoop]
  | some w => simp

theorem get_put_some {m : Map} (h : m.wb) {q w : CStr} (hw : m.get q = some w)
    (k v : CStr) : (m.put k v).get q = some w := by
  rw [get_put h, hw]

theorem get_put_match {m : Map} (h : m.wb) {q : CStr} (hq : m.get q = none)
    {k : CStr} (hk : k.content = q.content) (v : CStr) :
    (m.put k v).get q = some v := by
  rw [get_put h, hq]
  simp [(strcmp_eq_zero_iff k q).2 hk]

theorem get_put_nomatch {m : Map} (h : m.wb) {q : CStr} (hq : m.get q = none)
    {k : CStr} (hk : k.content ≠ q.content) (v : CStr) :
    (m.put k v).get q = none := by
  rw [get_put h, hq]
  have hz : strcmp k q ≠ 0 := fun hz => hk ((strcmp_eq_zero_iff k q).1 hz)
  simp [hz]

theorem get_putList_some {m : Map} (h : m.wb) {q w : CStr} (hw : m.get q = some w)
    (ps : List (CStr × CStr)) : (m.putList ps).get q = some w := by
  induction ps generalizing m with
  | nil => rw [putList_nil]; exact hw
  | cons p ps ih =>
      rw [putList_cons]
      exact ih (wb_put h p.1 p.2) (get_put_some h hw p.1 p.2)

theorem get_putList_nomatch {m : Map} (h : m.wb) {q : CStr}
    {ps : List (CStr × CStr)} (hps : ∀ p ∈ ps, p.1.content ≠ q.content) :
    (m.putList ps).get q = m.get q := by
  induction ps generalizing m with
  | nil => rw [putList_nil]
  | cons p ps ih =>
      rw [putList_cons]
      rcases hm : m.get q with _ | w
      · rw [ih (wb_put h p.1 p.2)
          (fun r hr => hps r (List.mem_cons_of_mem p hr))]
        exact get_put_nomatch h hm (hps p (List.mem_cons_self p ps)) p.2
      · rw [ih (wb_put h p.1 p.2)
          (fun r hr => hps r (List.mem_cons_of_mem p hr))]
        exact get_put_some h hm p.1 p.2

/-- Any run starting from a freshly constructed container, split around one
distinguished insertion whose key none of the earlier insertions share:
lookup by that key content finds that insertion's value. -/
theorem get_run_split (c : Nat) (l1 l2 : List (CStr × CStr)) (p : CStr × CStr)
    (h1 : ∀ r ∈ l1, r.1.content ≠ p.1.content)
    (q : CStr) (hq : q.content = p.1.content) :
    ((Map.construct c).putList (l1 ++ p :: l2)).get q = some p.2 := by
  rw [show l1 ++ p :: l2 = (l1 ++ [p]) ++ l2 by simp, putList_append,
    putList_append]
  have hwb1 : ((Map.construct c).putList l1).wb := wb_putList (wb_construct c) l1
  have hnone : ((Map.construct c).putList l1).get q = none := by
    rw [get_putList_nomatch (wb_construct c)
      (fun r hr => fun hc => h1 r hr (hc.trans hq))]
    exact get_construct c q
  have hsome : (((Map.construct c).putList l1).putList [p]).get q = some p.2 := by
    rw [show ((Map.construct c).putList l1).putList [p]
        = ((Map.construct c).putList l1).put p.1 p.2 from rfl]
    exact get_put_match hwb1 hnone hq.symm p.2
  exact get_putList_some (wb_putList hwb1 [p]) hsome l2

theorem lookupLoop_eq_none {q : CStr} {l : List Entry}
    (h : ∀ e ∈ l, e.key.content ≠ q.content) : lookupLoop q l = none := by
  induction l with
  | nil => rfl
  | cons e rest ih =>
      have hne : strcmp e.key q ≠ 0 :=
        fun hz => h e (List.mem_cons_self e rest) ((strcmp_eq_zero_iff e.key q).1 hz)
      simp only [lookupLoop, hne, if_false]
      exact ih fun r hr => h r (List.mem_cons_of_mem e hr)

theorem lookupLoop_congr {q q' : CStr} (h : q.content = q'.content) (l : List Entry) :
    lookupLoop q l = lookupLoop q' l := by
  induction l with
  | nil => rfl
  | cons e rest ih =>
      unfold lookupLoop
      rw [strcmp_congr_right e.key h, ih]

theorem lookupLoop_eq_find (q : CStr) (l : List Entry) :
    lookupLoop q l = (l.find? fun e => e.key.content == q.content).map Entry.value := by
  induction l with
  | nil => rfl
  | cons e rest ih =>
      by_cases h : e.key.content = q.content
      · have hz : strcmp e.key q = 0 := (strcmp_eq_zero_iff e.key q).2 h
        simp [lookupLoop, hz, List.find?, h]
      · have hz : strcmp e.key q ≠ 0 := fun hc => h ((strcmp_eq_zero_iff e.key q).1 hc)
        have hb : (e.key.content == q.content) = false := beq_eq_false_iff_ne.2 h
        simp [lookupLoop, hz, List.find?, hb, ih]

theorem capacity_le_put (m : Map) (k v : CStr) :
    m.capacity ≤ (m.put k v).capacity := by
  rw [capacity_put]
  by_cases h : m.size = m.capacity
  · rw [if_pos h]; omega
  · rw [if_neg h]

theorem putList_no_growth {ps : List (CStr × CStr)} {m : Map}
    (h : m.size + ps.length ≤ m.capacity) :
    (m.putList ps).capacity = m.capacity := by
  induction ps generalizing m with
  | nil => rw [putList_nil]
  | cons p ps ih =>
      rw [putList_cons]
      simp only [List.length_cons] at h
      have hne : m.size ≠ m.capacity := by omega
      have hcap : (m.put p.1 p.2).capacity = m.capacity := by
        rw [capacity_put, if_neg hne]
      have hle : (m.put p.1 p.2).size + ps.length ≤ (m.put p.1 p.2).capacity := by
        rw [size_put, hcap]; omega
      rw [ih hle, hcap]

theorem inv_put {m : Map} (hpos : 1 ≤ m.capacity) (hle : m.size ≤ m.capacity)
    (k v : CStr) :
    1 ≤ (m.put k v).capacity ∧ (m.put k v).size ≤ (m.put k v).capacity := by
  rw [capacity_put, size_put]
  by_cases h : m.size = m.capacity
  · rw [if_pos h, h]; omega
  · rw [if_neg h]; omega

theorem inv_putList {m : Map} (hpos : 1 ≤ m.capacity) (hle : m.size ≤ m.capacity)
    (ps : List (CStr × CStr)) :
    1 ≤ (m.putList ps).capacity ∧ (m.putList ps).size ≤ (m.putList ps).capacity := by
  induction ps generalizing m with
  | nil => rw [putList_nil]; exact ⟨hpos, hle⟩
  | cons p ps ih =>
      rw [putList_cons]
      obtain ⟨h1, h2⟩ := inv_put hpos hle p.1 p.2
      exact ih h1 h2

theorem capacity_putList_zero (ps : List (CStr × CStr)) :
    ∀ m : Map, m.capacity = 0 → (m.putList ps).capacity = 0 := by
  induction ps with
  | nil => intro m h; rw [putList_nil]; exact h
  | cons p ps ih =>
      intro m h
      rw [putList_cons]
      apply ih
      rw [capacity_put, h]
      split <;> simp

/-- Round-trip for a run with pairwise distinct key contents: every inserted
pair is found again, queried by any reference with the same key content. -/
theorem roundtrip_of_pairwise (c : Nat) {ps : List (CStr × CStr)}
    (hdist : ps.Pairwise fun a b => a.1.content ≠ b.1.content)
    {p : CStr × CStr} (hp : p ∈ ps) {q : CStr} (hq : q.content = p.1.content) :
    ((Map.construct c).putList ps).get q = some p.2 := by
  obtain ⟨l1, l2, rfl⟩ := List.append_of_mem hp
  refine get_run_split c l1 l2 p ?_ q hq
  rw [List.pairwise_append] at hdist
  intro r hr
  exact hdist.2.2 r hr p (List.mem_cons_self p l2)

/- ### Concrete strings and containers used by the closed instances -/

def kA : CStr := ⟨0, "a"⟩

def vA : CStr := ⟨1, "1"⟩

def kB : CStr := ⟨2, "b"⟩

def vB : CStr := ⟨3, "2"⟩

def qB : CStr := ⟨9, "b"⟩

def psAB : List (CStr × CStr) := [(kA, vA), (kB, vB)]

def mK : Map := (Map.construct 2).put ⟨0, "k"⟩ ⟨1, "w"⟩

def mFull : Map := (Map.construct 1).put kA vA

/- ### Claim theorems -/

/-- C1: first-match-wins for duplicate keys — after inserting `(k1, v1)` and
later `(k2, v2)` whose key contents both equal the query content, with
arbitrary insertions interleaved before and between them as long as none
before `(k1, v1)` carries that key content, `get` returns `v1`, the value of
the earliest-inserted matching entry. -/
theorem C1_first_match_wins (c : Nat) (ps0 ps1 : List (CStr × CStr))
    (k1 k2 v1 v2 q : CStr)
    (h0 : ∀ p ∈ ps0, p.1.content ≠ q.content)
    (hk1 : k1.content = q.content) (hk2 : k2.content = q.content) :
    ((Map.construct c).putList
        (ps0 ++ (k1, v1) :: (ps1 ++ [(k2, v2)]))).get q = some v1 :=
  get_run_split c ps0 (ps1 ++ [(k2, v2)]) (k1, v1)
    (fun r hr hc => h0 r hr (hc.trans hk1)) q hk1.symm

theorem C1_witness :
    ((Map.construct 2).putList
        ([(⟨10, "x"⟩, ⟨11, "9"⟩)] ++ (⟨1, "k"⟩, ⟨2, "v1"⟩) ::
          ([(⟨12, "y"⟩, ⟨13, "8"⟩)] ++ [(⟨3, "k"⟩, ⟨4, "v2"⟩)]))).get ⟨5, "k"⟩
      = some ⟨2, "v1"⟩ :=
  C1_first_match_wins 2 [(⟨10, "x"⟩, ⟨11, "9"⟩)] [(⟨12, "y"⟩, ⟨13, "8"⟩)]
    ⟨1, "k"⟩ ⟨3, "k"⟩ ⟨2, "v1"⟩ ⟨4, "v2"⟩ ⟨5, "k"⟩ (by decide) rfl rfl

/-- C2: round-trip — for a container constructed with any initial capacity
at least 1 and a sequence of insertions whose key contents are pairwise
distinct, `get` on (any reference with) the content of an inserted key
returns exactly the value inserted with that key. -/
theorem C2_roundtrip (c : Nat) (hc : 1 ≤ c) (ps : List (CStr × CStr))
    (hdist : ps.Pairwise fun a b => a.1.content ≠ b.1.content)
    (p : CStr × CStr) (hp : p ∈ ps) (q : CStr) (hq : q.content = p.1.content) :
    ((Map.construct c).putList ps).get q = some p.2 :=
  roundtrip_of_pairwise c hdist hp hq

theorem C2_witness :
    ((Map.construct 2).putList psAB).get qB = some vB :=
  C2_roundtrip 2 (by decide) psAB (by decide) (kB, vB) (by decide) qB rfl

/-- C3: insert semantics — a `put` on a state with `size ≤ capacity` doubles
the capacity exactly when `size = capacity`, keeps every existing entry at
its original index, writes the new entry at index `size`, and increments
`size`; and inserting `c + 1` distinctly-keyed entries into a container
constructed with capacity `c ≥ 1` strictly grows the capacity while every
inserted entry stays retrievable with its unchanged value. -/
theorem C3_insert_semantics (m : Map) (k v : CStr) (hwb : m.wb)
    (hle : m.size ≤ m.capacity) (c : Nat) (hc : 1 ≤ c)
    (ps : List (CStr × CStr)) (hlen : ps.length = c + 1)
    (hdist : ps.Pairwise fun a b => a.1.content ≠ b.1.content) :
    ((m.put k v).capacity
        = if m.size = m.capacity then m.capacity * 2 else m.capacity)
    ∧ (∀ i, i < m.size → ((m.put k v).entries)[i]? = m.entries[i]?)
    ∧ ((m.put k v).entries)[m.size]? = some ⟨k, v⟩
    ∧ (m.put k v).size = m.size + 1
    ∧ c < ((Map.construct c).putList ps).capacity
    ∧ (∀ p ∈ ps, ∀ q : CStr, q.content = p.1.content →
        ((Map.construct c).putList ps).get q = some p.2) := by
  refine ⟨capacity_put m k v, ?_, ?_, size_put m k v, ?_, ?_⟩
  · intro i hi
    rw [entries_put]
    exact List.getElem?_append_left (hwb ▸ hi)
  · rw [entries_put, ← hwb]
    exact List.getElem?_concat_length m.entries ⟨k, v⟩
  · obtain rfl | ⟨l, p, rfl⟩ := ps.eq_nil_or_concat
    · simp at hlen
    · have hl : l.length = c := by
        simp only [List.concat_eq_append, List.length_append,
          List.length_cons, List.length_nil] at hlen
        omega
      rw [List.concat_eq_append, putList_append]
      have hng : ((Map.construct c).putList l).capacity = c :=
        putList_no_growth (by simp [Map.construct, hl])
      have hsz : ((Map.construct c).putList l).size = c := by
        rw [size_putList, hl]
        exact Nat.zero_add c
      rw [show ((Map.construct c).putList l).putList [p]
          = ((Map.construct c).putList l).put p.1 p.2 from rfl]
      rw [capacity_put, hng, hsz, if_pos rfl]
      omega
  · intro p hp q hq
    exact roundtrip_of_pairwise c hdist hp hq

theorem C3_witness :
    (((Map.construct 1).put kA vA).capacity
        = if (Map.construct 1).size = (Map.construct 1).capacity
          then (Map.construct 1).capacity * 2 else (Map.construct 1).capacity)
    ∧ (∀ i, i < (Map.construct 1).size →
        (((Map.construct 1).put kA vA).entries)[i]? = (Map.construct 1).entries[i]?)
    ∧ (((Map.construct 1).put kA vA).entries)[(Map.construct 1).size]? = some ⟨kA, vA⟩
    ∧ ((Map.construct 1).put kA vA).size = (Map.construct 1).size + 1
    ∧ 1 < ((Map.construct 1).putList psAB).capacity
    ∧ (∀ p ∈ psAB, ∀ q : CStr, q.content = p.1.content →
        ((Map.construct 1).putList psAB).get q = some p.2) :=
  C3_insert_semantics (Map.construct 1) kA vA rfl (by decide) 1 (by decide)
    psAB rfl (by decide)

/-- C4 counterexample: constructing with initial capacity 0 is not rejected —
the constructor returns an ordinary container with `capacity = 0` and
`size = 0`, and on it doubling makes no progress: an insertion leaves the
capacity at 0 while the size becomes 1 (in the C code this write is out of
bounds of the zero-sized allocation). -/
theorem C4_counterexample :
    (Map.construct 0).capacity = 0 ∧ (Map.construct 0).size = 0
    ∧ ((Map.construct 0).put kA vA).capacity = 0
    ∧ ((Map.construct 0).put kA vA).size = 1 := by
  refine ⟨rfl, rfl, by decide, rfl⟩

/-- C4 (amended): the implementation does not reject a zero initial capacity;
`Map::Map(0)` returns a container with capacity 0, and no sequence of
insertions ever grows the capacity (doubling 0 yields 0) while the size keeps
increasing past it. -/
theorem C4_zero_capacity_never_grows (ps : List (CStr × CStr)) :
    (Map.construct 0).capacity = 0
    ∧ ((Map.construct 0).putList ps).capacity = 0
    ∧ ((Map.construct 0).putList ps).size = ps.length := by
  refine ⟨rfl, capacity_putList_zero ps (Map.construct 0) rfl, ?_⟩
  rw [size_putList]
  exact Nat.zero_add _

/-- C5: lookup miss — when no stored entry's key content equals the query's
content (in particular on a freshly constructed container), `get` returns
the explicit not-found signal `none`. -/
theorem C5_lookup_miss (m : Map) (q : CStr)
    (h : ∀ e ∈ m.entries, e.key.content ≠ q.content) :
    m.get q = none := by
  unfold Map.get
  exact lookupLoop_eq_none fun e he => h e (List.take_subset m.size m.entries he)

theorem C5_witness : mFull.get qB = none :=
  C5_lookup_miss mFull qB (by decide)

/-- C6: size/capacity invariant — starting from a container constructed with
capacity at least 1, the size after a run equals the number of insertions
performed, and `size ≤ capacity` holds after construction and after every
insertion of the run. -/
theorem C6_size_capacity_invariant (c : Nat) (hc : 1 ≤ c)
    (ps : List (CStr × CStr)) :
    ((Map.construct c).putList ps).size = ps.length
    ∧ (∀ l1 l2, ps = l1 ++ l2 →
        ((Map.construct c).putList l1).size ≤ ((Map.construct c).putList l1).capacity) := by
  constructor
  · rw [size_putList]
    exact Nat.zero_add _
  · intro l1 l2 hsplit
    exact (inv_putList (m := Map.construct c) hc (Nat.zero_le c) l1).2

theorem C6_witness :
    ((Map.construct 1).putList psAB).size = psAB.length
    ∧ (∀ l1 l2, psAB = l1 ++ l2 →
        ((Map.construct 1).putList l1).size ≤ ((Map.construct 1).putList l1).capacity) :=
  C6_size_capacity_invariant 1 (by decide) psAB

/-- C7: lookup compares keys by content, not reference — any two query
references with equal content get the same answer, and the answer is exactly
the value of the first scanned entry (insertion order, indices 0 to
`size - 1`) whose key content equals the query content. -/
theorem C7_content_equality (m : Map) (q q' : CStr) (hq : q.content = q'.content) :
    m.get q = m.get q'
    ∧ m.get q = ((m.entries.take m.size).find?
        (fun e => e.key.content == q.content)).map Entry.value := by
  constructor
  · unfold Map.get
    exact lookupLoop_congr hq (m.entries.take m.size)
  · unfold Map.get
    exact lookupLoop_eq_find q (m.entries.take m.size)

theorem C7_witness :
    mK.get ⟨5, "k"⟩ = mK.get ⟨6, "k"⟩
    ∧ mK.get ⟨5, "k"⟩ = ((mK.entries.take mK.size).find?
        (fun e => e.key.content == (⟨5, "k"⟩ : CStr).content)).map Entry.value :=
  C7_content_equality mK ⟨5, "k"⟩ ⟨6, "k"⟩ rfl

/-- C8: lookup is effect-free — as a state-passing operation, `get` leaves
`entries`, `size` and `capacity` unchanged, and repeating the same lookup on
the post-state yields the same result. -/
theorem C8_lookup_effect_free (m : Map) (q : CStr) :
    (m.getOp q).1.entries = m.entries
    ∧ (m.getOp q).1.size = m.size
    ∧ (m.getOp q).1.capacity = m.capacity
    ∧ (m.getOp q).2 = ((m.getOp q).1.getOp q).2 :=
  ⟨rfl, rfl, rfl, rfl⟩

/-- C9: capacity monotonicity and growth progress — no operation decreases
the capacity, and when an insertion on a full container with capacity at
least 1 triggers growth, the doubled capacity strictly exceeds the old one
and leaves room for the appended entry. -/
theorem C9_capacity_monotone (m : Map) (k v q : CStr) :
    m.capacity ≤ (m.put k v).capacity
    ∧ (m.getOp q).1.capacity = m.capacity
    ∧ (m.size = m.capacity → 1 ≤ m.capacity →
        m.capacity < (m.put k v).capacity
        ∧ (m.put k v).size ≤ (m.put k v).capacity) := by
  refine ⟨capacity_le_put m k v, rfl, ?_⟩
  intro hfull hpos
  have hcap : (m.put k v).capacity = m.capacity * 2 := by
    rw [capacity_put, if_pos hfull]
  constructor
  · rw [hcap]; omega
  · rw [hcap, size_put, hfull]; omega

theorem C9_witness :
    mFull.capacity ≤ (mFull.put kB vB).capacity
    ∧ (mFull.getOp qB).1.capacity = mFull.capacity
    ∧ (mFull.capacity < (mFull.put kB vB).capacity
        ∧ (mFull.put kB vB).size ≤ (mFull.put kB vB).capacity) :=
  ⟨(C9_capacity_monotone mFull kB vB qB).1,
   (C9_capacity_monotone mFull kB vB qB).2.1,
   (C9_capacity_monotone mFull kB vB qB).2.2 (by decide) (by decide)⟩

/-- C10: lookup results do not depend on the chosen initial capacity — two
containers constructed with any positive initial capacities, fed the same
insertion sequence, answer every query identically. -/
theorem C10_capacity_independence (c1 c2 : Nat) (hc1 : 1 ≤ c1) (hc2 : 1 ≤ c2)
    (ps : List (CStr × CStr)) (q : CStr) :
    ((Map.construct c1).putList ps).get q
      = ((Map.construct c2).putList ps).get q := by
  unfold Map.get
  rw [entries_putList, entries_putList, size_putList, size_putList]
  rfl

theorem C10_witness :
    ((Map.construct 1).putList psAB).get qB
      = ((Map.construct 4).putList psAB).get qB :=
  C10_capacity_independence 1 4 (by decide) (by decide) psAB qB
